import Mathlib

/-!
# Verification of the JSON-to-PostgreSQL ETL loader

Shallow embedding of `ETL_json_to_postgres.py`: the record source, the
column-spec parser, the batching generator, the typed row mapper, the write
strategy selection, and the control flow of `main`, together with theorems
checking the natural-language specification against them.
-/

namespace ETL

/-- JSON values as produced by Python's `json` module: `null` maps to Python
`None`, objects to `dict` (insertion-ordered, unique keys). Numbers are
modelled by integers; none of the verified properties involve floats. -/
inductive Json where
  | null : Json
  | bool (b : Bool) : Json
  | num (n : Int) : Json
  | str (s : String) : Json
  | arr (elems : List Json) : Json
  | obj (fields : List (String × Json)) : Json

/-- A parsed record: a Python `dict` from field name to JSON value,
insertion-ordered with unique keys. -/
abbrev Record := List (String × Json)

/-- `rec.get(name, None)` restricted to presence: the first value stored under
`name`, if any. -/
def dictGet (r : Record) (name : String) : Option Json :=
  match r.find? (fun p => p.1 == name) with
  | some p => some p.2
  | none => none

/-- Python `dict.setdefault(key, v)`: if `key` is present the dict is
unchanged, otherwise `(key, v)` is appended at the end. -/
def setdefault (r : Record) (key : String) (v : Json) : Record :=
  if (dictGet r key).isSome then r else r ++ [(key, v)]

/-- `chunked(iterable, size)` from the source (lines 92-100): accumulate items
into `chunk`, yield it as soon as `len(chunk) >= size`, and yield the final
partial chunk if non-empty. `size` is an `int` and may be zero or negative,
exactly as the Python `--batch-size` argument allows. -/
def chunkedGo (size : Int) : List α → List α → List (List α)
  | [], chunk => if chunk.isEmpty then [] else [chunk]
  | x :: xs, chunk =>
    if ((chunk.length + 1 : Nat) : Int) ≥ size then
      (chunk ++ [x]) :: chunkedGo size xs []
    else
      chunkedGo size xs (chunk ++ [x])

/-- `chunked(iterable, size)`: the list of yielded batches. -/
def chunked (l : List α) (size : Int) : List (List α) :=
  chunkedGo size l []

/-! ## Column Spec Parser (`parse_typed_columns`, lines 68-79) -/

/-- Python `str.strip()` whitespace set. -/
def isPySpace (c : Char) : Bool :=
  c = ' ' || c = '\t' || c = '\n' || c = '\r' || c = '\x0b' || c = '\x0c'

/-- Python `str.strip()` on a character list. -/
def pyStripChars (l : List Char) : List Char :=
  ((l.dropWhile isPySpace).reverse.dropWhile isPySpace).reverse

/-- Python `str.strip()`. -/
def pyStrip (s : String) : String :=
  String.mk (pyStripChars s.data)

/-- Helper for `spec.split(":", 1)`: text before the first `:` (reversed
accumulator) and text after it; `none` when no `:` occurs, which is exactly
Python's `":" not in spec` test. -/
def splitFirstColonAux : List Char → List Char → Option (List Char × List Char)
  | [], _ => none
  | c :: rest, acc =>
    if c = ':' then some (acc.reverse, rest) else splitFirstColonAux rest (c :: acc)

/-- `spec.split(":", 1)` guarded by `":" in spec`. -/
def splitFirstColon (s : String) : Option (String × String) :=
  match splitFirstColonAux s.data [] with
  | none => none
  | some (a, b) => some (String.mk a, String.mk b)

/-- `parse_typed_columns(specs)` (lines 68-79): each entry is split at its
first `:`; both halves are stripped and must be non-empty, otherwise a
`ValueError` is raised (modelled as `Except.error` with a paraphrased
message). Accepted entries are collected in order. -/
def parse_typed_columns : List String → Except String (List (String × String))
  | [] => .ok []
  | spec :: rest =>
    match splitFirstColon spec with
    | none => .error ("Column spec " ++ spec ++ " missing colon (use name:pgtype).")
    | some (rawName, rawType) =>
      let name := pyStrip rawName
      let pgtype := pyStrip rawType
      if name = "" || pgtype = "" then .error ("Bad column spec " ++ spec ++ ".")
      else
        match parse_typed_columns rest with
        | .error e => .error e
        | .ok cols => .ok ((name, pgtype) :: cols)

/-- Number of occurrences of a character in a string (used to state the
claim that an accepted entry has exactly one colon). -/
def countChar (c : Char) (s : String) : Nat :=
  (s.data.filter (fun d => d = c)).length

/-- One entry as the spec's words accept it: it contains exactly one `:`,
and the trimmed name and trimmed type around it are non-empty. -/
def entry_accepted_claim (s : String) : Bool :=
  countChar ':' s = 1 &&
    (match splitFirstColon s with
     | none => false
     | some (a, b) => pyStrip a ≠ "" && pyStrip b ≠ "")

/-- One entry as the code accepts it: at least one `:`, with non-empty
trimmed text before the first `:` and non-empty trimmed text after it. -/
def entry_accepted (s : String) : Bool :=
  match splitFirstColon s with
  | none => false
  | some (a, b) => pyStrip a ≠ "" && pyStrip b ≠ ""

/-! ## Write strategy of `insert_typed` (lines 123-149)

The SQL template string of the upsert branch is absent from the source
(`sql.SQL()` at line 135 has no argument). Modelled from the spec: the
skeleton is `INSERT ... ON CONFLICT (key) DO UPDATE SET ...`; the conflict
target and the `SET c = EXCLUDED.c` assignment list are taken from the
source's `format` arguments (`sql.Identifier(upsert_key)` and the `excluded`
list built from every column name other than the key). -/

/-- The write strategy `insert_typed` submits: a plain multi-row insert over
the declared columns, or an insert with on-conflict-by-key resolution whose
`updateCols` are the columns overwritten from the incoming (`EXCLUDED`)
row. -/
inductive WriteStrategy where
  | plainInsert (table : String) (cols : List String)
  | upsertInsert (table : String) (cols : List String) (key : String)
      (updateCols : List String)

/-- Strategy selection in `insert_typed` (line 130): the upsert branch is
taken when `upsert_key` is truthy (set and non-empty) and is among the
declared column names; `excluded` lists every declared column except the
key. -/
def insert_typed_strategy (table : String) (cols : List (String × String))
    (upsertKey : Option String) : WriteStrategy :=
  let colNames := cols.map Prod.fst
  match upsertKey with
  | some k =>
    if k != "" && colNames.contains k then
      .upsertInsert table colNames k (colNames.filter (fun c => c != k))
    else
      .plainInsert table colNames
  | none => .plainInsert table colNames

/-! ## Typed row mapper (`rows_for_typed`, lines 103-114) -/

/-- `rows_for_typed(records, cols)`: one row per record, one value per
declared column in declared order. A column named `ingested_at` always
receives `None`; any other column receives `rec.get(name, None)`.
`Json.null` stands for Python `None`, which is also what a JSON `null`
field value is parsed to, matching Python exactly. -/
def rows_for_typed (records : List Record) (cols : List (String × String)) :
    List (List Json) :=
  records.map (fun rec =>
    cols.map (fun c =>
      if c.1 == "ingested_at" then Json.null
      else
        match dictGet rec c.1 with
        | some v => v
        | none => Json.null))

/-! ## JSON parsing (model of Python's `json.loads` / `json.load`)

The `json` module is an external library; this is a faithful executable model
of the fragment the loader exercises: `null`/`true`/`false`, integer
numbers, strings with the standard escapes, arrays and objects, with JSON
whitespace. Floats are outside the model (no claim involves them); duplicate
object keys keep the last value, as a Python `dict` does. -/

/-- JSON whitespace (`json.decoder`: space, tab, newline, carriage return). -/
def isJsonWs (c : Char) : Bool :=
  c = ' ' || c = '\t' || c = '\n' || c = '\r'

/-- Drop leading JSON whitespace. -/
def skipWs (cs : List Char) : List Char :=
  cs.dropWhile isJsonWs

/-- Value of a hex digit, read off the code point: `0`-`9` are 48-57,
`a`-`f` are 97-102, `A`-`F` are 65-70. -/
def hexVal (c : Char) : Option Nat :=
  let n := c.toNat
  if 48 ≤ n && n ≤ 57 then some (n - 48)
  else if 97 ≤ n && n ≤ 102 then some (n - 87)
  else if 65 ≤ n && n ≤ 70 then some (n - 55)
  else none

/-- Body of a JSON string after the opening quote: returns the decoded
string and the input after the closing quote. -/
def parseStrBody (fuel : Nat) (cs : List Char) (acc : List Char) :
    Option (String × List Char) :=
  match fuel, cs with
  | 0, _ => none
  | _, [] => none
  | fuel + 1, c :: rest =>
    if c = '"' then some (String.mk acc.reverse, rest)
    else if c = '\\' then
      match rest with
      | [] => none
      | e :: rest2 =>
        if e = '"' then parseStrBody fuel rest2 ('"' :: acc)
        else if e = '\\' then parseStrBody fuel rest2 ('\\' :: acc)
        else if e = '/' then parseStrBody fuel rest2 ('/' :: acc)
        else if e = 'n' then parseStrBody fuel rest2 ('\n' :: acc)
        else if e = 't' then parseStrBody fuel rest2 ('\t' :: acc)
        else if e = 'r' then parseStrBody fuel rest2 ('\r' :: acc)
        else if e = 'b' then parseStrBody fuel rest2 ('\x08' :: acc)
        else if e = 'f' then parseStrBody fuel rest2 ('\x0c' :: acc)
        else if e = 'u' then
          match rest2 with
          | h1 :: h2 :: h3 :: h4 :: rest3 =>
            match hexVal h1, hexVal h2, hexVal h3, hexVal h4 with
            | some a, some b, some c2, some d =>
              parseStrBody fuel rest3
                (Char.ofNat (((a * 16 + b) * 16 + c2) * 16 + d) :: acc)
            | _, _, _, _ => none
          | _ => none
        else none
    else parseStrBody fuel rest (c :: acc)

/-- Digit run to a natural number. -/
def digitsToNat : List Char → Nat → Nat
  | [], acc => acc
  | c :: rest, acc => digitsToNat rest (acc * 10 + (c.toNat - '0'.toNat))

/-- A JSON number restricted to integers: optional minus sign then a digit
run; a following `.`/`e`/`E` (a float) is outside the model and rejected. -/
def parseNumber (cs : List Char) : Option (Json × List Char) :=
  let signed := match cs with
    | '-' :: r => (true, r)
    | _ => (false, cs)
  let digits := signed.2.takeWhile Char.isDigit
  let rest := signed.2.dropWhile Char.isDigit
  if digits.isEmpty then none
  else
    match rest with
    | '.' :: _ => none
    | 'e' :: _ => none
    | 'E' :: _ => none
    | _ =>
      let n : Int := Int.ofNat (digitsToNat digits 0)
      some (.num (if signed.1 then -n else n), rest)

/-- Insert a field into an object under construction, Python-`dict` style:
an existing key keeps its position and takes the new value, a new key is
appended. -/
def upsertField (fs : List (String × Json)) (k : String) (v : Json) :
    List (String × Json) :=
  if (fs.find? (fun p => p.1 == k)).isSome then
    fs.map (fun p => if p.1 == k then (k, v) else p)
  else fs ++ [(k, v)]

mutual

/-- Parse one JSON value; returns the value and the remaining input. -/
def parseVal : Nat → List Char → Option (Json × List Char)
  | 0, _ => none
  | fuel + 1, cs =>
    match skipWs cs with
    | [] => none
    | c :: rest =>
      if c = 'n' then
        match rest with
        | 'u' :: 'l' :: 'l' :: r => some (.null, r)
        | _ => none
      else if c = 't' then
        match rest with
        | 'r' :: 'u' :: 'e' :: r => some (.bool true, r)
        | _ => none
      else if c = 'f' then
        match rest with
        | 'a' :: 'l' :: 's' :: 'e' :: r => some (.bool false, r)
        | _ => none
      else if c = '"' then
        match parseStrBody (rest.length + 1) rest [] with
        | some (s, r) => some (.str s, r)
        | none => none
      else if c = '[' then
        match skipWs rest with
        | ']' :: r => some (.arr [], r)
        | _ => parseArrItems fuel rest []
      else if c = '\x7b' then
        match skipWs rest with
        | '\x7d' :: r => some (.obj [], r)
        | _ => parseObjItems fuel rest []
      else parseNumber (c :: rest)

/-- Parse the comma-separated elements of a non-empty array, after `[`. -/
def parseArrItems : Nat → List Char → List Json → Option (Json × List Char)
  | 0, _, _ => none
  | fuel + 1, cs, acc =>
    match parseVal fuel cs with
    | none => none
    | some (v, rest) =>
      match skipWs rest with
      | ',' :: r => parseArrItems fuel r (acc ++ [v])
      | ']' :: r => some (.arr (acc ++ [v]), r)
      | _ => none

/-- Parse the comma-separated members of a non-empty object, after `{`. -/
def parseObjItems : Nat → List Char → List (String × Json) →
    Option (Json × List Char)
  | 0, _, _ => none
  | fuel + 1, cs, acc =>
    match skipWs cs with
    | '"' :: rest =>
      match parseStrBody (rest.length + 1) rest [] with
      | none => none
      | some (k, r1) =>
        match skipWs r1 with
        | ':' :: r2 =>
          match parseVal fuel r2 with
          | none => none
          | some (v, r3) =>
            match skipWs r3 with
            | ',' :: r4 => parseObjItems fuel r4 (upsertField acc k v)
            | '\x7d' :: r4 => some (.obj (upsertField acc k v), r4)
            | _ => none
        | _ => none
    | _ => none

end

/-- `json.loads(text)`: parse one value and require only whitespace after
it. -/
def json_loads (cs : List Char) : Option Json :=
  match parseVal (2 * cs.length + 2) cs with
  | some (v, rest) => if skipWs rest = [] then some v else none
  | none => none

/-! ## Record Source (`load_json_records`, lines 30-47) -/

/-- Outcome of `load_json_records`: a (possibly empty) record sequence, a
bare non-array non-object JSON value returned unwrapped by the array branch
(`return data` at line 40), or a JSON decode error aborting the run. -/
inductive LoadResult where
  | records (rs : List Json)
  | scalar (j : Json)
  | parseError

/-- Split file text into lines at newlines, as iterating a Python text-mode
file does (universal newline translation is assumed already applied to the
content). -/
def splitLinesAux : List Char → List Char → List (List Char)
  | [], acc => [acc.reverse]
  | c :: rest, acc =>
    if c = '\n' then acc.reverse :: splitLinesAux rest []
    else splitLinesAux rest (c :: acc)

/-- All lines of the content. -/
def splitLines (cs : List Char) : List (List Char) :=
  splitLinesAux cs []

/-- The NDJSON loop (lines 42-47): strip each line, skip blank lines, parse
each remaining line as one JSON value; any decode failure aborts. -/
def parseNdjson : List (List Char) → Option (List Json)
  | [] => some []
  | line :: rest =>
    let l := pyStripChars line
    if l.isEmpty then parseNdjson rest
    else
      match json_loads l with
      | none => none
      | some j =>
        match parseNdjson rest with
        | none => none
        | some js => some (j :: js)

/-- `load_json_records(path)` over the file's text content: an empty file
yields no records; if the FIRST character is `[`, the whole file is parsed
as one JSON value (a bare object is wrapped into a one-element list, any
other value is returned as is); otherwise the file is treated as NDJSON. -/
def load_json_records (content : List Char) : LoadResult :=
  match content with
  | [] => .records []
  | head :: _ =>
    if head = '[' then
      match json_loads content with
      | none => .parseError
      | some (Json.obj fs) => .records [Json.obj fs]
      | some (Json.arr xs) => .records xs
      | some j => .scalar j
    else
      match parseNdjson (splitLines content) with
      | none => .parseError
      | some js => .records js

/-- Is this JSON value an object? -/
def Json.isObj : Json → Bool
  | .obj _ => true
  | _ => false

/-- The claim's NDJSON loop: like `parseNdjson` but each line is required to
be a JSON object. -/
def parseNdjsonObjs : List (List Char) → Option (List Json)
  | [] => some []
  | line :: rest =>
    let l := pyStripChars line
    if l.isEmpty then parseNdjsonObjs rest
    else
      match json_loads l with
      | some (Json.obj fs) =>
        match parseNdjsonObjs rest with
        | none => none
        | some js => some (Json.obj fs :: js)
      | _ => none

/-- The Record Source as claim C4 words it: inspect the first NON-WHITESPACE
character; on `[`, parse the entire file as one JSON value REQUIRED to be an
array of objects (a single bare object giving a one-element sequence);
otherwise NDJSON with each remaining line parsed as one JSON OBJECT. -/
def record_source_claim (content : List Char) : LoadResult :=
  match skipWs content with
  | [] => .records []
  | c :: _ =>
    if c = '[' then
      match json_loads content with
      | some (Json.obj fs) => .records [Json.obj fs]
      | some (Json.arr xs) =>
        if xs.all Json.isObj then .records xs else .parseError
      | _ => .parseError
    else
      match parseNdjsonObjs (splitLines content) with
      | none => .parseError
      | some js => .records js

/-- The Record Source as the amended claim words it: inspect the first
character of the file (an empty file has none and yields no records); if it
is `[`, parse the entire file as one JSON value — a bare object becomes a
one-element sequence, an array contributes its elements with no requirement
that they be objects, and any other value is passed through unwrapped;
otherwise parse as newline-delimited JSON, skipping blank lines, each
remaining line parsed as one JSON value of any shape. -/
def record_source_amended (content : List Char) : LoadResult :=
  match content.head? with
  | none => .records []
  | some c =>
    if c = '[' then
      match json_loads content with
      | none => .parseError
      | some (Json.obj fs) => .records [Json.obj fs]
      | some (Json.arr xs) => .records xs
      | some j => .scalar j
    else
      match parseNdjson (splitLines content) with
      | none => .parseError
      | some js => .records js

/-! ## The run (`main`, lines 152-179)

`main` is modelled as a function from the parsed records and configuration
to an outcome carrying the ordered trace of externally visible events. The
DDL/SQL text of `ensure_jsonb_table` and of the constraint statement in
`ensure_typed_table` is absent from the source (`sql.SQL()` with no
argument at lines 64 and 89); modelled from the spec: provisioning is a
single idempotent step, recorded as one `ensureTable` event. -/

/-- The two schema strategies of `--mode`. -/
inductive Mode where
  | jsonb
  | typed

/-- Externally visible events of a run, in order. -/
inductive Event where
  | computeTimestamp
  | connect
  | ensureTable
  | insertBatch (batch : List Record)
  | commit
  | reportNoRecords
  | reportInserted (n : Nat)

/-- Outcome of a run: normal completion, or a configuration error raised
after the events of `trace` have already happened. -/
inductive RunOutcome where
  | success (trace : List Event)
  | configError (trace : List Event) (msg : String)

/-- Record augmentation of lines 160-161: `r.setdefault("ingested_at", now)`
with the single run-wide timestamp `now`. -/
def augment (now : String) (r : Record) : Record :=
  setdefault r "ingested_at" (Json.str now)

/-- The per-batch write-and-commit loop shared by both modes. -/
def batchEvents (batches : List (List Record)) : List Event :=
  batches.flatMap (fun b => [Event.insertBatch b, Event.commit])

/-- `main` (lines 152-179) after record loading: empty input reports and
returns before anything else; otherwise the run-wide timestamp is captured,
every record is augmented, the connection is opened, and then — only then —
typed mode parses and validates the column spec, provisions the table and
writes the batches. -/
def mainRun (records : List Record) (now : String) (mode : Mode)
    (colSpecs : List String) (_upsertKey : Option String) (batchSize : Int) :
    RunOutcome :=
  if records.isEmpty then .success [.reportNoRecords]
  else
    let recs := records.map (augment now)
    match mode with
    | .jsonb =>
      .success ([.computeTimestamp, .connect, .ensureTable] ++
        batchEvents (chunked recs batchSize) ++
        [.reportInserted records.length])
    | .typed =>
      match parse_typed_columns colSpecs with
      | .error e => .configError [.computeTimestamp, .connect] e
      | .ok cols =>
        if cols.isEmpty then
          .configError [.computeTimestamp, .connect]
            "Typed mode requires --columns like name:text id:int ..."
        else
          .success ([.computeTimestamp, .connect, .ensureTable] ++
            batchEvents (chunked recs batchSize) ++
            [.reportInserted records.length])

/-- The batches actually written during a trace, in order. -/
def writtenBatches (tr : List Event) : List (List Record) :=
  tr.filterMap (fun e =>
    match e with
    | .insertBatch b => some b
    | _ => none)

/-! ## Lemmas about `chunked` -/

/-- Concatenating everything `chunkedGo` yields gives the pending chunk
followed by the remaining input, for any batch size. -/
theorem chunkedGo_flatten (size : Int) (xs : List α) :
    ∀ chunk : List α, (chunkedGo size xs chunk).flatten = chunk ++ xs := by
  induction xs with
  | nil =>
    intro chunk
    simp only [chunkedGo]
    by_cases h : chunk.isEmpty = true
    · rw [if_pos h]
      simp [List.isEmpty_iff.mp h]
    · rw [if_neg h]
      simp
  | cons x xs ih =>
    intro chunk
    simp only [chunkedGo]
    by_cases h : ((chunk.length + 1 : Nat) : Int) ≥ size
    · rw [if_pos h]
      simp [ih]
    · rw [if_neg h]
      simp [ih]

/-- For a batch size of at least 1, `chunkedGo` with a pending chunk smaller
than the size yields exactly `⌈(pending + remaining) / size⌉` batches. -/
theorem chunkedGo_length (size : Int) (hs : 1 ≤ size) (xs : List α) :
    ∀ chunk : List α, (chunk.length : Int) < size →
      (chunkedGo size xs chunk).length =
        (chunk.length + xs.length + size.toNat - 1) / size.toNat := by
  induction xs with
  | nil =>
    intro chunk hc
    simp only [chunkedGo, List.length_nil]
    by_cases h : chunk.isEmpty = true
    · rw [if_pos h]
      have hlen : chunk.length = 0 := by simp [List.isEmpty_iff.mp h]
      simp [hlen, Nat.div_eq_of_lt (show size.toNat - 1 < size.toNat by omega)]
    · rw [if_neg h]
      have hlen : 1 ≤ chunk.length := by
        cases chunk with
        | nil => simp at h
        | cons a l => simp
      have heq : chunk.length + 0 + size.toNat - 1 =
          (chunk.length - 1) + size.toNat := by omega
      simp only [List.length_singleton]
      rw [heq, Nat.add_div_right _ (by omega : 0 < size.toNat),
        Nat.div_eq_of_lt (by omega)]
  | cons x xs ih =>
    intro chunk hc
    simp only [chunkedGo]
    by_cases h : ((chunk.length + 1 : Nat) : Int) ≥ size
    · rw [if_pos h]
      have hrec := ih [] (by simpa using (show (0 : Int) < size by omega))
      simp only [List.length_nil, Nat.zero_add] at hrec
      simp only [List.length_cons, hrec]
      have heq : chunk.length + (xs.length + 1) + size.toNat - 1 =
          (xs.length + size.toNat - 1) + size.toNat := by omega
      rw [heq, Nat.add_div_right _ (by omega : 0 < size.toNat)]
    · rw [if_neg h]
      have hrec := ih (chunk ++ [x]) (by simp; omega)
      simp only [List.length_append, List.length_singleton] at hrec
      simp only [List.length_cons, hrec]
      have heq : chunk.length + 1 + xs.length + size.toNat - 1 =
          chunk.length + (xs.length + 1) + size.toNat - 1 := by omega
      rw [heq]

/-- Every batch `chunkedGo` yields is non-empty, for any batch size and any
pending chunk. -/
theorem chunkedGo_ne_nil (size : Int) (xs : List α) :
    ∀ chunk : List α, ∀ c ∈ chunkedGo size xs chunk, c ≠ [] := by
  induction xs with
  | nil =>
    intro chunk c hmem
    simp only [chunkedGo] at hmem
    by_cases h : chunk.isEmpty = true
    · rw [if_pos h] at hmem
      simp at hmem
    · rw [if_neg h] at hmem
      rw [List.mem_singleton] at hmem
      subst hmem
      simpa [List.isEmpty_iff] using h
  | cons x xs ih =>
    intro chunk c hmem
    simp only [chunkedGo] at hmem
    by_cases h : ((chunk.length + 1 : Nat) : Int) ≥ size
    · rw [if_pos h] at hmem
      rcases List.mem_cons.mp hmem with rfl | hmem2
      · simp
      · exact ih [] c hmem2
    · rw [if_neg h] at hmem
      exact ih (chunk ++ [x]) c hmem

/-- For a batch size of at least 1, every batch yielded from a pending chunk
smaller than the size has at most `size` elements. -/
theorem chunkedGo_sizes (size : Int) (hs : 1 ≤ size) (xs : List α) :
    ∀ chunk : List α, (chunk.length : Int) < size →
      ∀ c ∈ chunkedGo size xs chunk, (c.length : Int) ≤ size := by
  induction xs with
  | nil =>
    intro chunk hc c hmem
    simp only [chunkedGo] at hmem
    by_cases h : chunk.isEmpty = true
    · rw [if_pos h] at hmem
      simp at hmem
    · rw [if_neg h] at hmem
      rw [List.mem_singleton] at hmem
      subst hmem
      omega
  | cons x xs ih =>
    intro chunk hc c hmem
    simp only [chunkedGo] at hmem
    by_cases h : ((chunk.length + 1 : Nat) : Int) ≥ size
    · rw [if_pos h] at hmem
      rcases List.mem_cons.mp hmem with rfl | hmem2
      · simp only [List.length_append, List.length_singleton]
        omega
      · exact ih [] (by simpa using (show (0 : Int) < size by omega)) c hmem2
    · rw [if_neg h] at hmem
      exact ih (chunk ++ [x]) (by simp; omega) c hmem

/-- For a batch size of at least 1, every batch except possibly the last has
exactly `size` elements. -/
theorem chunkedGo_dropLast (size : Int) (hs : 1 ≤ size) (xs : List α) :
    ∀ chunk : List α, (chunk.length : Int) < size →
      ∀ c ∈ (chunkedGo size xs chunk).dropLast, c.length = size.toNat := by
  induction xs with
  | nil =>
    intro chunk hc c hmem
    simp only [chunkedGo] at hmem
    by_cases h : chunk.isEmpty = true
    · rw [if_pos h] at hmem
      simp at hmem
    · rw [if_neg h] at hmem
      simp at hmem
  | cons x xs ih =>
    intro chunk hc c hmem
    simp only [chunkedGo] at hmem
    by_cases h : ((chunk.length + 1 : Nat) : Int) ≥ size
    · rw [if_pos h] at hmem
      cases hrec : chunkedGo size xs ([] : List α) with
      | nil =>
        rw [hrec] at hmem
        simp at hmem
      | cons b bs =>
        rw [hrec, List.dropLast_cons₂, List.mem_cons] at hmem
        rcases hmem with rfl | hmem2
        · simp only [List.length_append, List.length_singleton]
          omega
        · have h2 := ih [] (by simpa using (show (0 : Int) < size by omega)) c
          rw [hrec] at h2
          exact h2 hmem2
    · rw [if_neg h] at hmem
      exact ih (chunk ++ [x]) (by simp; omega) c hmem

/-- For a batch size of at most 1, every element goes into its own singleton
batch: the `len(chunk) >= size` test fires on every item. -/
theorem chunked_le_one (size : Int) (hs : size ≤ 1) (xs : List α) :
    chunked xs size = xs.map (fun x => [x]) := by
  unfold chunked
  induction xs with
  | nil => rfl
  | cons x xs ih =>
    simp only [chunkedGo]
    have h : ((([] : List α).length + 1 : Nat) : Int) ≥ size := by
      simp only [List.length_nil]
      omega
    rw [if_pos h]
    simp only [List.nil_append, List.map_cons]
    exact congrArg _ ih

/-! ## Claim theorems -/

/-- C1: for every record list of size `N` and every batch size ≥ 1,
`chunked` partitions the records into exactly `⌈N / size⌉` batches (written
`(N + size - 1) / size` in natural division), each non-empty and of at most
`size` records, all but possibly the last of exactly `size` records, and
concatenating the batches in yielded order reproduces the input sequence
exactly. -/
theorem chunked_partitions (l : List α) (size : Int) (hs : 1 ≤ size) :
    (chunked l size).length = (l.length + size.toNat - 1) / size.toNat ∧
    (chunked l size).flatten = l ∧
    (∀ c ∈ chunked l size, c ≠ [] ∧ (c.length : Int) ≤ size) ∧
    (∀ c ∈ (chunked l size).dropLast, c.length = size.toNat) := by
  have h0 : (([] : List α).length : Int) < size := by simp; omega
  refine ⟨?_, ?_, fun c hc => ⟨?_, ?_⟩, fun c hc => ?_⟩
  · simpa using chunkedGo_length size hs l [] h0
  · simpa using chunkedGo_flatten size l []
  · exact chunkedGo_ne_nil size l [] c hc
  · exact chunkedGo_sizes size hs l [] h0 c hc
  · exact chunkedGo_dropLast size hs l [] h0 c hc

/-- Witness for C1 at `l = [1, 2, 3]`, `size = 2`: two batches whose
concatenation is the input. -/
theorem chunked_partitions_witness :
    (chunked [1, 2, 3] (2 : Int)).length = (3 + 2 - 1) / 2 ∧
    (chunked [1, 2, 3] (2 : Int)).flatten = [1, 2, 3] := by
  have h := chunked_partitions [1, 2, 3] (2 : Int) (by decide)
  exact ⟨h.1, h.2.1⟩

/-- C10: for every finite record sequence and every integer batch size,
zero and negative included, batching terminates (`chunked` is a total
function of this development) and every yielded batch is non-empty; for any
batch size ≤ 1 every yielded batch contains exactly one record. -/
theorem chunked_batches_nonempty (l : List α) (size : Int) :
    (∀ c ∈ chunked l size, c ≠ []) ∧
    (size ≤ 1 → ∀ c ∈ chunked l size, c.length = 1) := by
  constructor
  · exact chunkedGo_ne_nil size l []
  · intro hs c hc
    rw [chunked_le_one size hs] at hc
    obtain ⟨x, _, rfl⟩ := List.mem_map.mp hc
    rfl

/-- Witness for C10 at `l = [5, 6]`, `size = 0`: the batch `[5]` is yielded,
is non-empty, and has exactly one element. -/
theorem chunked_batches_nonempty_witness :
    ([5] : List Nat) ≠ [] ∧ ([5] : List Nat).length = 1 := by
  have h := chunked_batches_nonempty [5, 6] (0 : Int)
  have hmem : [5] ∈ chunked [5, 6] (0 : Int) := by decide
  exact ⟨h.1 [5] hmem, h.2 (by decide) [5] hmem⟩

/-- C2: with a set (non-empty) upsert key that is one of the declared column
names, `insert_typed` produces an insert with on-conflict-by-key resolution
whose update set is exactly the declared non-key columns — the key column is
not among them; with the key unset or not among the declared names, it
produces a plain insert. -/
theorem insert_typed_strategy_correct (table : String)
    (cols : List (String × String)) (k : String) (hk : k ≠ "") :
    (k ∈ cols.map Prod.fst →
      ∃ updateCols,
        insert_typed_strategy table cols (some k) =
          .upsertInsert table (cols.map Prod.fst) k updateCols ∧
        k ∉ updateCols ∧
        (∀ c, c ∈ updateCols ↔ (c ∈ cols.map Prod.fst ∧ c ≠ k))) ∧
    (k ∉ cols.map Prod.fst →
      insert_typed_strategy table cols (some k) =
        .plainInsert table (cols.map Prod.fst)) ∧
    insert_typed_strategy table cols none =
      .plainInsert table (cols.map Prod.fst) := by
  refine ⟨fun hmem => ?_, fun hmem => ?_, rfl⟩
  · refine ⟨(cols.map Prod.fst).filter (fun c => c != k), ?_, ?_, fun c => ?_⟩
    · simp [insert_typed_strategy, hk, hmem]
    · simp
    · simp [List.mem_filter]
  · simp [insert_typed_strategy, hmem]

/-- Witness for C2 at `cols = [(id, int), (name, text)]`: key `id` gives an
upsert whose update set excludes `id`; key `zz` (undeclared) and no key give
plain inserts. -/
theorem insert_typed_strategy_correct_witness :
    (∃ updateCols,
      insert_typed_strategy "t" [("id", "int"), ("name", "text")] (some "id") =
        .upsertInsert "t" ["id", "name"] "id" updateCols ∧
      "id" ∉ updateCols) ∧
    insert_typed_strategy "t" [("id", "int"), ("name", "text")] (some "zz") =
      .plainInsert "t" ["id", "name"] ∧
    insert_typed_strategy "t" [("id", "int"), ("name", "text")] none =
      .plainInsert "t" ["id", "name"] := by
  have h1 := insert_typed_strategy_correct "t" [("id", "int"), ("name", "text")]
    "id" (by decide)
  have h2 := insert_typed_strategy_correct "t" [("id", "int"), ("name", "text")]
    "zz" (by decide)
  obtain ⟨u, hu, hku, _⟩ := h1.1 (by simp)
  exact ⟨⟨u, hu, hku⟩, h2.2.1 (by simp), h2.2.2⟩

/-- C3 counterexample: a record that carries its own `ingested_at` value
does NOT keep it in the typed row — a declared `ingested_at` column is
always written as NULL (line 108-110), while the claim requires the
record's value when the field is present. -/
theorem rows_for_typed_counterexample :
    rows_for_typed [[("ingested_at", Json.str "2020-01-01")]]
      [("ingested_at", "timestamptz")] = [[Json.null]] ∧
    dictGet [("ingested_at", Json.str "2020-01-01")] "ingested_at" =
      some (Json.str "2020-01-01") ∧
    Json.null ≠ Json.str "2020-01-01" := by
  exact ⟨rfl, rfl, fun h => Json.noConfusion h⟩

/-- Value of row `i`, column `j` of the typed mapping. -/
theorem rows_for_typed_get (records : List Record) (cols : List (String × String))
    (i j : Nat) (hi : i < records.length) (hj : j < cols.length)
    (hi2 : i < (rows_for_typed records cols).length)
    (hj2 : j < ((rows_for_typed records cols).get ⟨i, hi2⟩).length) :
    ((rows_for_typed records cols).get ⟨i, hi2⟩).get ⟨j, hj2⟩ =
      (if (cols.get ⟨j, hj⟩).1 == "ingested_at" then Json.null
       else
         match dictGet (records.get ⟨i, hi⟩) (cols.get ⟨j, hj⟩).1 with
         | some v => v
         | none => Json.null) := by
  simp [rows_for_typed, List.getElem_map]

/-- C3 amended: in typed mode the mapped row has one value per declared
column in declared order; for every declared column OTHER THAN one named
`ingested_at` the value is the record's value for that field when present
and NULL when absent, while a declared `ingested_at` column is always
written as NULL regardless of the record. -/
theorem rows_for_typed_amended (records : List Record)
    (cols : List (String × String)) :
    (rows_for_typed records cols).length = records.length ∧
    (∀ row ∈ rows_for_typed records cols, row.length = cols.length) ∧
    (∀ i j (hi : i < records.length) (hj : j < cols.length)
        (hi2 : i < (rows_for_typed records cols).length)
        (hj2 : j < ((rows_for_typed records cols).get ⟨i, hi2⟩).length),
      ((cols.get ⟨j, hj⟩).1 ≠ "ingested_at" →
        (∀ v, dictGet (records.get ⟨i, hi⟩) (cols.get ⟨j, hj⟩).1 = some v →
          ((rows_for_typed records cols).get ⟨i, hi2⟩).get ⟨j, hj2⟩ = v) ∧
        (dictGet (records.get ⟨i, hi⟩) (cols.get ⟨j, hj⟩).1 = none →
          ((rows_for_typed records cols).get ⟨i, hi2⟩).get ⟨j, hj2⟩ =
            Json.null)) ∧
      ((cols.get ⟨j, hj⟩).1 = "ingested_at" →
        ((rows_for_typed records cols).get ⟨i, hi2⟩).get ⟨j, hj2⟩ =
          Json.null)) := by
  refine ⟨by simp [rows_for_typed], fun row hr => ?_, fun i j hi hj hi2 hj2 => ?_⟩
  · obtain ⟨rec, _, rfl⟩ := List.mem_map.mp hr
    simp
  · have hget := rows_for_typed_get records cols i j hi hj hi2 hj2
    refine ⟨fun hne => ⟨fun v hv => ?_, fun hv => ?_⟩, fun heq => ?_⟩
    · rw [hget, if_neg (by simpa using hne), hv]
    · rw [hget, if_neg (by simpa using hne), hv]
    · rw [hget, if_pos (by simpa using heq)]

/-- Witness for C3 amended at one record and two columns: a present field
keeps its value, an absent one becomes NULL. -/
theorem rows_for_typed_amended_witness :
    ((rows_for_typed [[("id", Json.num 7)]] [("id", "int"), ("name", "text")]).get
        ⟨0, by decide⟩).get ⟨0, by decide⟩ = Json.num 7 ∧
    ((rows_for_typed [[("id", Json.num 7)]] [("id", "int"), ("name", "text")]).get
        ⟨0, by decide⟩).get ⟨1, by decide⟩ = Json.null := by
  have h := rows_for_typed_amended [[("id", Json.num 7)]]
    [("id", "int"), ("name", "text")]
  refine ⟨?_, ?_⟩
  · exact ((h.2.2 0 0 (by decide) (by decide) (by decide) (by decide)).1
      (by decide)).1 (Json.num 7) rfl
  · exact ((h.2.2 0 1 (by decide) (by decide) (by decide) (by decide)).1
      (by decide)).2 rfl

/-- C6 counterexample: the entry `a:int:4` contains two colons, so the claim
requires a configuration error, but the parser splits only at the FIRST
colon (`split(":", 1)`) and accepts it as name `a` with type `int:4`. -/
theorem parse_typed_columns_counterexample :
    parse_typed_columns ["a:int:4"] = .ok [("a", "int:4")] ∧
    countChar ':' "a:int:4" = 2 := by
  exact ⟨rfl, rfl⟩

/-- C6 amended: the parser accepts an entry iff it contains AT LEAST one
colon with a non-empty trimmed name before the first colon and a non-empty
trimmed type string after it; a list parses successfully iff every entry is
accepted, and otherwise a configuration error is raised. -/
theorem parse_typed_columns_accepts_iff (specs : List String) :
    (∃ cols, parse_typed_columns specs = .ok cols) ↔
      ∀ s ∈ specs, entry_accepted s = true := by
  induction specs with
  | nil => simp [parse_typed_columns]
  | cons spec rest ih =>
    simp only [parse_typed_columns, List.mem_cons, entry_accepted]
    cases hsplit : splitFirstColon spec with
    | none =>
      simp only [hsplit]
      constructor
      · rintro ⟨cols, hcols⟩
        exact absurd hcols (by simp)
      · intro hall
        have := hall spec (Or.inl rfl)
        simp [hsplit] at this
    | some ab =>
      obtain ⟨a, b⟩ := ab
      simp only [hsplit]
      by_cases hempty : pyStrip a = "" ∨ pyStrip b = ""
      · have hcond : (decide (pyStrip a = "") || decide (pyStrip b = "")) = true := by
          rcases hempty with h | h <;> simp [h]
        constructor
        · rintro ⟨cols, hcols⟩
          rw [if_pos (by simpa using hcond)] at hcols
          exact absurd hcols (by simp)
        · intro hall
          have := hall spec (Or.inl rfl)
          simp [hsplit] at this
          rcases hempty with h | h <;> simp [h] at this
      · push_neg at hempty
        have hcond : ¬ (pyStrip a = "" ∨ pyStrip b = "") := by
          push_neg
          exact hempty
        rw [if_neg (by simpa using hcond)]
        cases hrec : parse_typed_columns rest with
        | error e =>
          constructor
          · rintro ⟨cols, hcols⟩
            exact absurd hcols (by simp)
          · intro hall
            have : ∃ cols, parse_typed_columns rest = .ok cols :=
              ih.mpr (fun s hs => hall s (Or.inr hs))
            rw [hrec] at this
            exact absurd this (by simp)
        | ok cols =>
          constructor
          · intro _ s hs
            rcases hs with rfl | hs
            · simp [entry_accepted, hsplit, hempty.1, hempty.2]
            · exact ih.mp ⟨cols, hrec⟩ s hs
          · intro _
            exact ⟨(pyStrip a, pyStrip b) :: cols, rfl⟩

/-- Witness for C6 amended: `id:int` is accepted, so parsing succeeds. -/
theorem parse_typed_columns_accepts_iff_witness :
    ∃ cols, parse_typed_columns ["id:int"] = .ok cols :=
  (parse_typed_columns_accepts_iff ["id:int"]).mpr (by decide)

/-- C9 counterexample: the parser performs no uniqueness check — the input
`["a:int", "a:text"]` is accepted and the resulting Column Spec repeats the
name `a`. -/
theorem parse_typed_columns_duplicate_names :
    parse_typed_columns ["a:int", "a:text"] = .ok [("a", "int"), ("a", "text")] ∧
    ¬ (([("a", "int"), ("a", "text")] : List (String × String)).map
        Prod.fst).Nodup := by
  exact ⟨rfl, by decide⟩

/-- C9 amended: an accepted Column Spec has one (name, type) pair per input
entry, with non-empty trimmed name and type, but names are NOT required to
be pairwise distinct — duplicates pass through. -/
theorem parse_typed_columns_shape (specs : List String)
    (cols : List (String × String)) (h : parse_typed_columns specs = .ok cols) :
    cols.length = specs.length ∧ ∀ p ∈ cols, p.1 ≠ "" ∧ p.2 ≠ "" := by
  induction specs generalizing cols with
  | nil =>
    simp only [parse_typed_columns] at h
    cases h
    simp
  | cons spec rest ih =>
    simp only [parse_typed_columns] at h
    split at h
    · exact absurd h (by simp)
    · split at h
      · exact absurd h (by simp)
      · split at h
        · exact absurd h (by simp)
        · rename_i hcond hx cols2 hrec
          clear hx
          cases h
          simp only [Bool.or_eq_true, decide_eq_true_eq, not_or] at hcond
          have ihr := ih cols2 hrec
          refine ⟨by simp [ihr.1], fun p hp => ?_⟩
          rcases List.mem_cons.mp hp with rfl | hp2
          · exact ⟨hcond.1, hcond.2⟩
          · exact ihr.2 p hp2

/-- Witness for C9 amended at `["a:int"]`. -/
theorem parse_typed_columns_shape_witness :
    ([("a", "int")] : List (String × String)).length = ["a:int"].length ∧
    ∀ p ∈ ([("a", "int")] : List (String × String)), p.1 ≠ "" ∧ p.2 ≠ "" :=
  parse_typed_columns_shape ["a:int"] [("a", "int")] rfl

/-- C4 counterexample: in the file `"\n[1]\n"` the first NON-whitespace
character is `[`, so the claim's detection rule takes the whole-file array
branch (and rejects the non-object element `1`); the code instead reads the
RAW first character `\n`, takes the NDJSON path, and yields one record that
is itself the array `[1]`. -/
theorem load_json_records_counterexample :
    load_json_records ("\n[1]\n".data) = .records [Json.arr [Json.num 1]] ∧
    record_source_claim ("\n[1]\n".data) = .parseError ∧
    (skipWs ("\n[1]\n".data)).head? = some '[' := by
  exact ⟨rfl, rfl, rfl⟩

/-- C4 amended: the Record Source inspects the FIRST character of the file
(not the first non-whitespace character); if it is `[` the entire file is
parsed as one JSON value — a bare object becomes a one-element sequence, an
array contributes its elements with no requirement that they be objects, and
any other value is passed through unwrapped — and otherwise the file is
parsed as newline-delimited JSON, skipping blank lines, each remaining line
independently parsed as one JSON value of any shape. -/
theorem load_json_records_amended (content : List Char) :
    load_json_records content = record_source_amended content := by
  cases content <;> rfl

/-- Looking up the appended pair after a failed lookup. -/
theorem dictGet_append_right (r : Record) (key : String) (v : Json)
    (h : dictGet r key = none) : dictGet (r ++ [(key, v)]) key = some v := by
  induction r with
  | nil => simp [dictGet, List.find?]
  | cons p r ih =>
    cases hbeq : p.1 == key with
    | true => simp [dictGet, List.find?, hbeq] at h
    | false =>
      simp only [dictGet, List.find?, hbeq] at h ⊢
      cases hfind : List.find? (fun q => q.1 == key) r with
      | some q => rw [hfind] at h; simp at h
      | none =>
        have : dictGet r key = none := by simp [dictGet, hfind]
        have := ih this
        simpa [dictGet, List.cons_append, List.find?, hbeq] using this

/-- No timestamp capture happens inside the write loop. -/
theorem computeTimestamp_not_mem_batchEvents (B : List (List Record)) :
    Event.computeTimestamp ∉ batchEvents B := by
  simp [batchEvents]

/-- The batches recorded by the write loop are exactly the input batches. -/
theorem writtenBatches_batchEvents (B : List (List Record)) :
    writtenBatches (batchEvents B) = B := by
  induction B with
  | nil => rfl
  | cons b B ih =>
    simp only [batchEvents, List.flatMap_cons] at ih ⊢
    simp only [writtenBatches, List.filterMap_append] at ih ⊢
    simp [ih]

/-- The written batches of a successful non-empty run trace. -/
theorem writtenBatches_run_trace (B : List (List Record)) (n : Nat) :
    writtenBatches ([Event.computeTimestamp, Event.connect, Event.ensureTable] ++
      batchEvents B ++ [Event.reportInserted n]) = B := by
  have h := writtenBatches_batchEvents B
  simp only [writtenBatches, List.filterMap_append] at h ⊢
  simp [h]

/-- C5: the run-wide UTC timestamp is captured exactly once, before any
write begins — in every successful run that performs at least one batch
write, the trace starts with the single `computeTimestamp` event and no
further capture follows — and after augmentation every record that lacked
`ingested_at` carries the shared timestamp while every record that already
had one is unchanged; the concatenation of all written batches is exactly
the augmented record sequence. -/
theorem timestamp_once_before_writes (records : List Record) (now : String)
    (mode : Mode) (colSpecs : List String) (key : Option String)
    (batchSize : Int) :
    (∀ r ∈ records,
      (dictGet r "ingested_at" = none →
        dictGet (augment now r) "ingested_at" = some (Json.str now)) ∧
      ((dictGet r "ingested_at").isSome → augment now r = r)) ∧
    (∀ tr, mainRun records now mode colSpecs key batchSize = .success tr →
      ((∃ b, Event.insertBatch b ∈ tr) →
        ∃ rest, tr = Event.computeTimestamp :: rest ∧
          Event.computeTimestamp ∉ rest) ∧
      (writtenBatches tr).flatten = records.map (augment now)) := by
  constructor
  · intro r _
    refine ⟨fun hnone => ?_, fun hsome => ?_⟩
    · have : (dictGet r "ingested_at").isSome = false := by simp [hnone]
      simp only [augment, setdefault, this, Bool.false_eq_true, if_neg,
        not_false_iff]
      exact dictGet_append_right r "ingested_at" (Json.str now) hnone
    · simp [augment, setdefault, hsome]
  · intro tr htr
    by_cases hemp : records.isEmpty
    · have hrun : mainRun records now mode colSpecs key batchSize =
          .success [Event.reportNoRecords] := by
        simp [mainRun, hemp]
      rw [hrun] at htr
      cases htr
      constructor
      · rintro ⟨b, hb⟩
        simp at hb
      · have : records = [] := List.isEmpty_iff.mp hemp
        simp [writtenBatches, this]
    · have hflat : (chunked (records.map (augment now)) batchSize).flatten =
          records.map (augment now) := by
        simpa [chunked] using
          chunkedGo_flatten batchSize (records.map (augment now)) []
      cases mode with
      | jsonb =>
        have hrun : mainRun records now Mode.jsonb colSpecs key batchSize =
            .success ([Event.computeTimestamp, Event.connect,
              Event.ensureTable] ++
              batchEvents (chunked (records.map (augment now)) batchSize) ++
              [Event.reportInserted records.length]) := by
          simp [mainRun, hemp]
        rw [hrun] at htr
        cases htr
        refine ⟨fun _ => ?_, ?_⟩
        · exact ⟨Event.connect :: Event.ensureTable ::
            (batchEvents (chunked (records.map (augment now)) batchSize) ++
              [Event.reportInserted records.length]),
            by simp, by simp [batchEvents]⟩
        · rw [writtenBatches_run_trace]
          exact hflat
      | typed =>
        cases hparse : parse_typed_columns colSpecs with
        | error e =>
          have hrun : mainRun records now Mode.typed colSpecs key batchSize =
              .configError [Event.computeTimestamp, Event.connect] e := by
            simp [mainRun, hemp, hparse]
          rw [hrun] at htr
          exact absurd htr (by simp)
        | ok cols =>
          by_cases hcols : cols.isEmpty
          · have hrun : mainRun records now Mode.typed colSpecs key batchSize =
                .configError [Event.computeTimestamp, Event.connect]
                  "Typed mode requires --columns like name:text id:int ..." := by
              simp [mainRun, hemp, hparse, hcols]
            rw [hrun] at htr
            exact absurd htr (by simp)
          · have hrun : mainRun records now Mode.typed colSpecs key batchSize =
                .success ([Event.computeTimestamp, Event.connect,
                  Event.ensureTable] ++
                  batchEvents (chunked (records.map (augment now)) batchSize) ++
                  [Event.reportInserted records.length]) := by
              simp [mainRun, hemp, hparse, hcols]
            rw [hrun] at htr
            cases htr
            refine ⟨fun _ => ?_, ?_⟩
            · exact ⟨Event.connect :: Event.ensureTable ::
                (batchEvents (chunked (records.map (augment now)) batchSize) ++
                  [Event.reportInserted records.length]),
                by simp, by simp [batchEvents]⟩
            · rw [writtenBatches_run_trace]
              exact hflat

/-- Witness for C5: a record without `ingested_at` gains the shared
timestamp. -/
theorem timestamp_once_before_writes_witness :
    dictGet (augment "T" [("a", Json.num 1)]) "ingested_at" =
      some (Json.str "T") := by
  have h := timestamp_once_before_writes [[("a", Json.num 1)]] "T" Mode.jsonb
    [] none 1000
  exact (h.1 [("a", Json.num 1)] (by simp)).1 rfl

/-- C7 counterexample: in typed mode with the malformed column spec
`["name"]`, the run does fail with a configuration error — but the
connection has already been opened: `connect` is in the trace that precedes
the error, contradicting "the run never attempts a connection before
column-spec validation has succeeded". -/
theorem typed_config_error_counterexample :
    mainRun [[("a", Json.num 1)]] "T" Mode.typed ["name"] none 1000 =
      .configError [Event.computeTimestamp, Event.connect]
        "Column spec name missing colon (use name:pgtype)." ∧
    Event.connect ∈ [Event.computeTimestamp, Event.connect] := by
  exact ⟨rfl, by simp⟩

/-- C7 amended: in typed mode a malformed column spec fails the run with a
configuration error before any provisioning or write — but AFTER the
database connection has been opened: `main` connects first (line 163) and
only then parses the column spec (line 172). -/
theorem typed_config_error_after_connect (records : List Record) (now : String)
    (colSpecs : List String) (key : Option String) (batchSize : Int)
    (e : String) (hne : records ≠ [])
    (he : parse_typed_columns colSpecs = .error e) :
    mainRun records now Mode.typed colSpecs key batchSize =
      .configError [Event.computeTimestamp, Event.connect] e ∧
    Event.connect ∈ [Event.computeTimestamp, Event.connect] ∧
    (∀ tr m, mainRun records now Mode.typed colSpecs key batchSize =
        .configError tr m →
      Event.ensureTable ∉ tr ∧ ∀ b, Event.insertBatch b ∉ tr) := by
  have hemp : records.isEmpty = false := by
    simpa [List.isEmpty_iff] using hne
  have hrun : mainRun records now Mode.typed colSpecs key batchSize =
      .configError [Event.computeTimestamp, Event.connect] e := by
    simp [mainRun, hemp, he]
  refine ⟨hrun, by simp, fun tr m htr => ?_⟩
  rw [hrun] at htr
  cases htr
  exact ⟨by simp, fun b => by simp⟩

/-- Witness for C7 amended at one record and the colon-free spec `name`. -/
theorem typed_config_error_after_connect_witness :
    mainRun [[("a", Json.num 1)]] "T" Mode.typed ["name"] none 1000 =
      .configError [Event.computeTimestamp, Event.connect]
        "Column spec name missing colon (use name:pgtype)." :=
  (typed_config_error_after_connect [[("a", Json.num 1)]] "T" ["name"] none
    1000 "Column spec name missing colon (use name:pgtype)."
    (by simp) rfl).1

/-- C8: an empty input is not an error — a zero-byte file parses to zero
records, and a run over zero records reports that no records were found,
completes successfully, and performs no connection, no provisioning and no
writes. -/
theorem empty_input_no_writes :
    load_json_records [] = LoadResult.records [] ∧
    (∀ (now : String) (mode : Mode) (colSpecs : List String)
        (key : Option String) (batchSize : Int),
      mainRun [] now mode colSpecs key batchSize =
        .success [Event.reportNoRecords]) ∧
    Event.connect ∉ [Event.reportNoRecords] ∧
    Event.ensureTable ∉ [Event.reportNoRecords] ∧
    (∀ b : List Record, Event.insertBatch b ∉ [Event.reportNoRecords]) := by
  refine ⟨rfl, fun now mode colSpecs key batchSize => rfl, by simp, by simp,
    fun b => by simp⟩

end ETL
